import Mathlib

/-!
Verification of the nested-list manager (`src/nestedListManager.py`).

The Python code stores a flat collection of property-group items, each with an
integer `id`, a display `name`, an integer `parent_id` (the sentinel -1 means
"root level") and an integer `order` used to sort siblings.  The manager keeps
an auto-incrementing `next_id` counter and an `active_index` cursor.

Shallow embedding conventions:
  * the Blender collection becomes a `List NestedListItem`; `items.add()`
    appends an element whose fields carry the declared property defaults
    (`id = 0`, `name = ""`, `parent_id = -1`, `order = 0`) and the Python code
    then assigns fields one by one — the embedding reproduces that order of
    events, which matters because `get_next_order` is called while the new
    element is already inside the collection;
  * Python `max(gen, default=-1)` becomes `int_max_default`;
  * Python's stable `sorted(..., key=order)` becomes the stable insertion sort
    `sort_by_order`;
  * the unbounded `while current:` ancestor walk in `move_item` becomes a
    fuel-based function (`cycle_walk`).  Fuel `items.length + 1` is exact: the
    walk follows the deterministic id-to-parent map, so if it makes
    `items.length + 1` successful steps some id repeated, the walk is trapped
    in a cycle not containing the target, and the Python loop runs forever.
    Hence `move_item` returns `none` exactly when the source diverges;
  * item mutation through an object reference becomes a map over the list
    keyed on `id`; in every state the manager can reach, ids are unique
    (proved below), so this coincides with the source's by-identity update.
-/

/-- One element of the nested list (`NestedListItem` in the source).  Field
defaults mirror the property declarations: `parent_id` defaults to -1, the
numeric fields to 0 and `name` to the empty string. -/
structure NestedListItem where
  id : Int
  name : String
  parent_id : Int
  order : Int
deriving DecidableEq, Repr

/-- The manager state (`NestedListManager` in the source): the item
collection, the UI cursor `active_index` and the id counter `next_id`. -/
structure NestedListManager where
  items : List NestedListItem
  active_index : Int
  next_id : Int
deriving DecidableEq, Repr

/-- The manager a fresh document starts from: no items, `next_id = 0`. -/
def initial_manager : NestedListManager :=
  { items := [], active_index := 0, next_id := 0 }

/-- The `direction` argument of `reorder_item` (the source uses the strings
'UP' and 'DOWN'). -/
inductive Direction where
  | UP : Direction
  | DOWN : Direction
deriving DecidableEq, Repr

/-- Python's `max(l, default=-1)`: the maximum of the list, or -1 when the
list is empty. -/
def int_max_default : List Int → Int
  | [] => -1
  | x :: xs => xs.foldl max x

/-- `get_item_by_id`: first item whose `id` matches, scanning in collection
order (`None` in the source becomes `none`). -/
def NestedListManager.get_item_by_id (m : NestedListManager) (item_id : Int) :
    Option NestedListItem :=
  m.items.find? (fun it => it.id == item_id)

/-- `get_next_order`: one greater than the maximum `order` among the items of
the given parent currently in the collection, with `max` defaulting to -1. -/
def NestedListManager.get_next_order (m : NestedListManager) (parent_id : Int) : Int :=
  int_max_default ((m.items.filter (fun it => it.parent_id == parent_id)).map
    (fun it => it.order)) + 1

/-- `add_item`: `items.add()` first appends an element with default field
values; the code then assigns `id`, `name` and `parent_id`, and only then
computes `order` via `get_next_order` — at that point the new element (still
carrying its default `order = 0`) is already in the collection and matches the
`parent_id` filter, so it takes part in the maximum.  Returns the pair of the
new id and the updated manager. -/
def NestedListManager.add_item (m : NestedListManager) (name : String)
    (parent_id : Int) : Int × NestedListManager :=
  let pending : NestedListItem :=
    { id := m.next_id, name := name, parent_id := parent_id, order := 0 }
  let mid : NestedListManager := { m with items := m.items ++ [pending] }
  let new_order := mid.get_next_order parent_id
  (m.next_id,
    { m with
      items := m.items ++ [{ pending with order := new_order }],
      next_id := m.next_id + 1 })

/-- `get_collection_index_from_id`: storage index of the item with the given
id, or -1 when absent. -/
def NestedListManager.get_collection_index_from_id (m : NestedListManager)
    (item_id : Int) : Int :=
  match m.items.findIdx? (fun it => it.id == item_id) with
  | some i => (i : Int)
  | none => -1

/-- Insert an item into a list that is already sorted by `order`, before the
first strictly larger element and after earlier equal elements' positions in a
way that keeps the overall sort stable. -/
def insert_by_order (x : NestedListItem) : List NestedListItem → List NestedListItem
  | [] => [x]
  | y :: ys => if x.order ≤ y.order then x :: y :: ys else y :: insert_by_order x ys

/-- Stable ascending sort by `order` — the embedding of Python's
`sorted(..., key=lambda i: i.order)`, which is guaranteed stable. -/
def sort_by_order (l : List NestedListItem) : List NestedListItem :=
  l.foldr insert_by_order []

/-- The recursive `collect_items` helper of `flatten_hierarchy`, with explicit
fuel bounding the recursion depth.  Every level filters the children of
`parent_id`, sorts them by `order` and emits each child followed by its own
subtree at `level + 1`. -/
def collect_items (items : List NestedListItem) :
    Nat → Int → Nat → List (NestedListItem × Nat)
  | 0, _, _ => []
  | fuel + 1, parent_id, level =>
    ((sort_by_order (items.filter (fun it => it.parent_id == parent_id))).map
      (fun c => (c, level) :: collect_items items fuel c.id (level + 1))).flatten

/-- `flatten_hierarchy`: depth-first pre-order traversal from the sentinel
parent -1 at level 0.  Fuel `items.length + 1` dominates the recursion depth
of the source (a chain of nested parents can never repeat an item without
creating a cycle that the traversal from the sentinel cannot reach). -/
def NestedListManager.flatten_hierarchy (m : NestedListManager) :
    List (NestedListItem × Nat) :=
  collect_items m.items (m.items.length + 1) (-1) 0

/-- `get_id_from_flattened_index`: id at the given display position, or -1
when the index is out of bounds. -/
def NestedListManager.get_id_from_flattened_index (m : NestedListManager)
    (flattened_index : Int) : Int :=
  let flattened := m.flatten_hierarchy
  if h : 0 ≤ flattened_index ∧ flattened_index.toNat < flattened.length then
    (flattened.get ⟨flattened_index.toNat, h.2⟩).1.id
  else -1

/-- The `while current:` ancestor walk of `move_item`: starting from the id
`x`, repeatedly look the current id up and follow its `parent_id`.  `some
true` means the walk reached the target id (the move would create a cycle),
`some false` means the walk fell off the tree (reached -1 or a dangling id),
`none` means the fuel ran out — with fuel `items.length + 1` that happens
exactly when the Python loop never terminates, because a walk of that many
successful steps must repeat an id and is then trapped forever in a cycle that
does not contain the target. -/
def cycle_walk (m : NestedListManager) (target : Int) : Int → Nat → Option Bool
  | _, 0 => none
  | x, fuel + 1 =>
    match m.get_item_by_id x with
    | none => some false
    | some cur =>
      if cur.id == target then some true else cycle_walk m target cur.parent_id fuel

/-- `move_item`: reparent `item_id` under `new_parent_id`.  Returns
`some (false, m)` on rejection (missing item, missing non-sentinel target, or
the ancestor walk reaches the item), `some (true, m')` on success, and `none`
when the source's ancestor walk diverges.  On success the code first assigns
`parent_id` and only then computes the new `order`, so the moved item (with
its old `order`) participates in the maximum over its new sibling group. -/
def NestedListManager.move_item (m : NestedListManager) (item_id new_parent_id : Int) :
    Option (Bool × NestedListManager) :=
  match m.get_item_by_id item_id with
  | none => some (false, m)
  | some _ =>
    if new_parent_id == -1 || (m.get_item_by_id new_parent_id).isSome then
      match cycle_walk m item_id new_parent_id (m.items.length + 1) with
      | none => none
      | some true => some (false, m)
      | some false =>
        let items1 := m.items.map (fun it =>
          if it.id == item_id then { it with parent_id := new_parent_id } else it)
        let mid : NestedListManager := { m with items := items1 }
        let new_order := mid.get_next_order new_parent_id
        some (true,
          { m with
            items := items1.map (fun it =>
              if it.id == item_id then { it with order := new_order } else it) })
    else some (false, m)

/-- The simultaneous `item.order, swap_item.order = swap_item.order,
item.order` assignment of `reorder_item`, as a map keyed on the two ids.  `a`
and `b` carry the pre-swap field values, exactly as Python reads both
right-hand sides before writing. -/
def swap_orders (m : NestedListManager) (a b : NestedListItem) : NestedListManager :=
  { m with items := m.items.map (fun it =>
      if it.id == a.id then { it with order := b.order }
      else if it.id == b.id then { it with order := a.order }
      else it) }

/-- The `siblings` list of `reorder_item`: all items sharing `it`'s
`parent_id`, sorted stably by `order`. -/
def sibling_group (m : NestedListManager) (it : NestedListItem) : List NestedListItem :=
  sort_by_order (m.items.filter (fun i => i.parent_id == it.parent_id))

/-- The `idx = siblings.index(item)` step of `reorder_item`: position of the
item inside its sorted sibling group.  The source locates the object itself;
since ids are unique in every reachable store, matching on `id` is the same
search. -/
def sibling_index (m : NestedListManager) (it : NestedListItem) : Nat :=
  (sibling_group m it).findIdx (fun i => i.id == it.id)

/-- `reorder_item`: locate the item, sort its sibling group by `order`
(stably), find the item's index in that sorted group, and swap `order` values
with the neighbour in the requested direction; `(false, m)` when the item is
missing or already at the boundary. -/
def NestedListManager.reorder_item (m : NestedListManager) (item_id : Int)
    (direction : Direction) : Bool × NestedListManager :=
  match m.get_item_by_id item_id with
  | none => (false, m)
  | some item =>
    match direction with
    | Direction.UP =>
      if 0 < sibling_index m item then
        match (sibling_group m item)[sibling_index m item - 1]? with
        | some swap_item => (true, swap_orders m item swap_item)
        | none => (false, m)
      else (false, m)
    | Direction.DOWN =>
      if sibling_index m item + 1 < (sibling_group m item).length then
        match (sibling_group m item)[sibling_index m item + 1]? with
        | some swap_item => (true, swap_orders m item swap_item)
        | none => (false, m)
      else (false, m)

/-- Removal as performed by the remove operator: `items.remove(index)` deletes
the element at the given storage index. -/
def NestedListManager.remove_at (m : NestedListManager) (i : Nat) : NestedListManager :=
  { m with items := m.items.eraseIdx i }

/-! ### Concrete stores used by individual claims -/

/-- Store for the flatten-ordering scenario: roots A(order 0) and B(order 1),
and C(order 0) a child of A. -/
def store_c1 : NestedListManager :=
  { items := [⟨0, "A", -1, 0⟩, ⟨1, "B", -1, 1⟩, ⟨2, "C", 0, 0⟩],
    active_index := 0, next_id := 3 }

/-- Store with two root siblings that share the same `order` value, the
second one listed later in the collection. -/
def store_c10 : NestedListManager :=
  { items := [⟨0, "A", -1, 0⟩, ⟨1, "B", -1, 0⟩],
    active_index := 0, next_id := 2 }

/-! ### C1: flatten is a depth-first pre-order traversal -/

/-- C1: `flatten_hierarchy` performs the depth-first pre-order traversal from
the sentinel, sorting sibling groups by `order` and visiting an item's
children (at depth + 1) before its next sibling: on the store with root items
A(order 0), B(order 1) and child C(order 0, parent A) it returns exactly
[(A, 0), (C, 1), (B, 0)]. -/
theorem flatten_hierarchy_depth_first_example :
    store_c1.flatten_hierarchy =
      [(⟨0, "A", -1, 0⟩, 0), (⟨2, "C", 0, 0⟩, 1), (⟨1, "B", -1, 1⟩, 0)] := by
  decide

/-! ### C4: order assigned by add_item -/

/-- Store whose root sibling group already has orders 0, 2 and 5. -/
def store_c4 : NestedListManager :=
  { items := [⟨0, "P", -1, 0⟩, ⟨1, "Q", -1, 2⟩, ⟨2, "R", -1, 5⟩],
    active_index := 0, next_id := 3 }

/-- C4: evaluation of `add_item` at the failing input.  Adding the very first
item to an empty store assigns it order 1, not the order 0 the specification
promises: `items.add()` inserts the element (default `order = 0`) before
`get_next_order` runs, so the new item counts as its own sibling and the
`default=-1` branch of the maximum — the code's own provision for an empty
sibling group — is unreachable from `add_item`.  With existing sibling orders
{0, 2, 5} the self-inclusion is masked and the result is 6 as specified. -/
theorem add_item_first_sibling_order_is_one :
    ((initial_manager.add_item "A" (-1)).2.items.map (fun it => it.order)) = [1] ∧
    ((store_c4.add_item "S" (-1)).2.items.map (fun it => it.order)) = [0, 2, 5, 6] := by
  decide

/-! ### C10: reordering two equal-order siblings is a successful no-op -/

/-- C10: with two siblings of equal `order`, `reorder_item` on the
later-listed one with direction UP is not a boundary failure — the stable
sort keeps the later item at index 1, so the call succeeds — but the swap
exchanges two equal `order` values, leaving every item and therefore the
whole store and its flattening unchanged. -/
theorem reorder_equal_orders_squash :
    store_c10.reorder_item 1 Direction.UP = (true, store_c10) ∧
    (store_c10.reorder_item 1 Direction.UP).2.flatten_hierarchy =
      store_c10.flatten_hierarchy := by
  decide

/-! ### Basic lemmas about the embedded list operations -/

/-- An item found by `get_item_by_id` carries the id it was looked up by. -/
theorem get_item_by_id_id {m : NestedListManager} {x : Int} {it : NestedListItem}
    (h : m.get_item_by_id x = some it) : it.id = x := by
  have hp := List.find?_some h
  exact beq_iff_eq.mp hp

/-- An item found by `get_item_by_id` belongs to the collection. -/
theorem get_item_by_id_mem {m : NestedListManager} {x : Int} {it : NestedListItem}
    (h : m.get_item_by_id x = some it) : it ∈ m.items :=
  List.mem_of_find?_eq_some h

/-- Membership in a stable insertion step. -/
theorem mem_insert_by_order {a x : NestedListItem} :
    ∀ {l : List NestedListItem}, a ∈ insert_by_order x l ↔ a = x ∨ a ∈ l := by
  intro l
  induction l with
  | nil => simp [insert_by_order]
  | cons y ys ih =>
    simp only [insert_by_order]
    split
    · simp
    · simp only [List.mem_cons, ih]
      tauto

/-- `sort_by_order` is a permutation in the weak sense used here: it has the
same members as its input. -/
theorem mem_sort_by_order {a : NestedListItem} :
    ∀ {l : List NestedListItem}, a ∈ sort_by_order l ↔ a ∈ l := by
  intro l
  induction l with
  | nil => simp [sort_by_order]
  | cons x xs ih =>
    have hstep : sort_by_order (x :: xs) = insert_by_order x (sort_by_order xs) := rfl
    rw [hstep, mem_insert_by_order, ih, List.mem_cons]

/-- Positions strictly before `findIdx` do not satisfy the predicate. -/
theorem findIdx_earlier_false {α : Type} {p : α → Bool} :
    ∀ (l : List α) (i : Nat) (hi : i < l.length), i < l.findIdx p → p (l.get ⟨i, hi⟩) = false := by
  intro l
  induction l with
  | nil => intro i hi; exact absurd hi (by simp)
  | cons a l ih =>
    intro i hi hlt
    rw [List.findIdx_cons] at hlt
    cases hpa : p a with
    | true => rw [hpa] at hlt; simp at hlt
    | false =>
      rw [hpa] at hlt
      simp only [cond_false] at hlt
      cases i with
      | zero => exact hpa
      | succ j =>
        exact ih j (Nat.lt_of_succ_lt_succ hi) (Nat.lt_of_succ_lt_succ hlt)

/-- A member of the sorted sibling group lies in the collection and shares the
reference item's `parent_id`. -/
theorem mem_sibling_group {m : NestedListManager} {it sw : NestedListItem}
    (h : sw ∈ sibling_group m it) : sw ∈ m.items ∧ sw.parent_id = it.parent_id := by
  have hm := mem_sort_by_order.mp h
  have hf := List.mem_filter.mp hm
  exact ⟨hf.1, beq_iff_eq.mp hf.2⟩


/-- Stable insertion produces a permutation of pushing the element in front. -/
theorem perm_insert_by_order (x : NestedListItem) :
    ∀ l : List NestedListItem, (insert_by_order x l).Perm (x :: l) := by
  intro l
  induction l with
  | nil => exact List.Perm.refl _
  | cons y ys ih =>
    simp only [insert_by_order]
    split
    · exact List.Perm.refl _
    · exact List.Perm.trans (List.Perm.cons y ih) (List.Perm.swap x y ys)

/-- `sort_by_order` permutes its input. -/
theorem perm_sort_by_order : ∀ l : List NestedListItem, (sort_by_order l).Perm l := by
  intro l
  induction l with
  | nil => exact List.Perm.refl _
  | cons x xs ih =>
    have hstep : sort_by_order (x :: xs) = insert_by_order x (sort_by_order xs) := rfl
    rw [hstep]
    exact List.Perm.trans (perm_insert_by_order x _) (List.Perm.cons x ih)

/-- With duplicate-free ids the sorted sibling group is duplicate-free. -/
theorem sibling_group_nodup {m : NestedListManager} {it : NestedListItem}
    (hnodup : (m.items.map (fun i => i.id)).Nodup) : (sibling_group m it).Nodup :=
  (List.Perm.nodup_iff (perm_sort_by_order _)).mpr
    (List.Nodup.filter _ (List.Nodup.of_map _ hnodup))

/-! ### C7: a successful reorder only exchanges the two order values -/

/-- C7: when `reorder_item` succeeds on a store with duplicate-free ids (an
invariant of every reachable store), the result differs from the input store
only in the `order` fields of the targeted item `a` and of one sibling `b`
adjacent to it in the order-sorted sibling group (the immediately preceding
one for UP, the following one for DOWN): those two `order` values are
exchanged, while every other item, the `id`, `name` and `parent_id` of `a`
and `b`, the counter `next_id` and the cursor `active_index` are unchanged. -/
theorem reorder_item_success_swaps_only_orders
    (m : NestedListManager) (item_id : Int) (d : Direction) (m' : NestedListManager)
    (hnodup : (m.items.map (fun i => i.id)).Nodup)
    (hsucc : m.reorder_item item_id d = (true, m')) :
    m'.next_id = m.next_id ∧ m'.active_index = m.active_index ∧
    ∃ a b, m.get_item_by_id item_id = some a ∧ b ∈ m.items ∧ a.id ≠ b.id ∧
      a.parent_id = b.parent_id ∧
      ((d = Direction.UP → (sibling_group m a)[sibling_index m a - 1]? = some b) ∧
       (d = Direction.DOWN → (sibling_group m a)[sibling_index m a + 1]? = some b)) ∧
      m'.items = m.items.map (fun it =>
        if it.id == a.id then { it with order := b.order }
        else if it.id == b.id then { it with order := a.order }
        else it) := by
  unfold NestedListManager.reorder_item at hsucc
  cases hfind : m.get_item_by_id item_id with
  | none => rw [hfind] at hsucc; simp at hsucc
  | some item =>
    rw [hfind] at hsucc
    have hitemmem : item ∈ m.items := get_item_by_id_mem hfind
    cases d with
    | UP =>
      dsimp only at hsucc
      by_cases h0 : 0 < sibling_index m item
      · rw [if_pos h0] at hsucc
        cases hget : (sibling_group m item)[sibling_index m item - 1]? with
        | none => rw [hget] at hsucc; simp at hsucc
        | some sw =>
          rw [hget] at hsucc
          injection hsucc with h1 h2
          subst h2
          obtain ⟨hlt, hval⟩ := List.getElem?_eq_some.mp hget
          have hswmem : sw ∈ sibling_group m item := hval ▸ List.getElem_mem hlt
          obtain ⟨hmem, hpar⟩ := mem_sibling_group hswmem
          have hne : item.id ≠ sw.id := by
            have hfalse := findIdx_earlier_false (p := fun i => i.id == item.id)
              (sibling_group m item) (sibling_index m item - 1) hlt
              (Nat.sub_lt h0 Nat.one_pos)
            simp only [List.get_eq_getElem, hval] at hfalse
            exact fun heq => (beq_eq_false_iff_ne.mp hfalse) heq.symm
          exact ⟨rfl, rfl, item, sw, rfl, hmem, hne, hpar.symm,
            ⟨fun _ => hget, fun hd => Direction.noConfusion hd⟩, rfl⟩
      · rw [if_neg h0] at hsucc; simp at hsucc
    | DOWN =>
      dsimp only at hsucc
      by_cases h0 : sibling_index m item + 1 < (sibling_group m item).length
      · rw [if_pos h0] at hsucc
        cases hget : (sibling_group m item)[sibling_index m item + 1]? with
        | none => rw [hget] at hsucc; simp at hsucc
        | some sw =>
          rw [hget] at hsucc
          injection hsucc with h1 h2
          subst h2
          obtain ⟨hlt, hval⟩ := List.getElem?_eq_some.mp hget
          have hswmem : sw ∈ sibling_group m item := hval ▸ List.getElem_mem hlt
          obtain ⟨hmem, hpar⟩ := mem_sibling_group hswmem
          have hne : item.id ≠ sw.id := by
            intro heq
            have hidx : sibling_index m item < (sibling_group m item).length :=
              Nat.lt_of_succ_lt h0
            have hfound : (fun i => i.id == item.id)
                ((sibling_group m item).get ⟨sibling_index m item, hidx⟩) = true :=
              List.findIdx_getElem (w := hidx)
            set e := (sibling_group m item).get ⟨sibling_index m item, hidx⟩ with he
            have hemem : e ∈ sibling_group m item := List.getElem_mem hidx
            have heid : e.id = item.id := beq_iff_eq.mp hfound
            have hesw : e = sw := by
              apply List.inj_on_of_nodup_map hnodup
                (mem_sibling_group hemem).1 hmem
              rw [heid, heq]
            have hnd : (sibling_group m item).Nodup := sibling_group_nodup hnodup
            have : (⟨sibling_index m item, hidx⟩ : Fin (sibling_group m item).length) =
                ⟨sibling_index m item + 1, hlt⟩ := by
              rw [← List.Nodup.get_inj_iff hnd]
              show (sibling_group m item).get ⟨sibling_index m item, hidx⟩ =
                (sibling_group m item).get ⟨sibling_index m item + 1, hlt⟩
              rw [← he, hesw, List.get_eq_getElem, hval]
            have := Fin.mk.injEq .. ▸ this
            simp at this
          exact ⟨rfl, rfl, item, sw, rfl, hmem, hne, hpar.symm,
            ⟨fun hd => Direction.noConfusion hd, fun _ => hget⟩, rfl⟩
      · rw [if_neg h0] at hsucc; simp at hsucc

/-- Siblings X(order 0) and Y(order 1) under the same (root) parent. -/
def store_c7 : NestedListManager :=
  { items := [⟨0, "X", -1, 0⟩, ⟨1, "Y", -1, 1⟩], active_index := 0, next_id := 2 }

/-- The store expected after `reorder_item(Y, UP)` on `store_c7`: the two
order values are exchanged. -/
def store_c7_after : NestedListManager :=
  { items := [⟨0, "X", -1, 1⟩, ⟨1, "Y", -1, 0⟩], active_index := 0, next_id := 2 }

/-- Witness for C7: on siblings X(order 0), Y(order 1), `reorder_item(Y, UP)`
succeeds, afterwards X has order 1 and Y has order 0, flattening lists Y
before X, and the frame theorem applies at this input. -/
theorem reorder_item_success_swaps_only_orders_witness :
    store_c7.reorder_item 1 Direction.UP = (true, store_c7_after) ∧
    store_c7_after.flatten_hierarchy.map (fun e => e.1.id) = [1, 0] ∧
    ∃ a b : NestedListItem, a.id ≠ b.id ∧
      store_c7_after.items = store_c7.items.map (fun it =>
        if it.id == a.id then { it with order := b.order }
        else if it.id == b.id then { it with order := a.order }
        else it) := by
  refine ⟨by decide, by decide, ?_⟩
  obtain ⟨-, -, a, b, -, -, hne, -, -, hitems⟩ :=
    reorder_item_success_swaps_only_orders store_c7 1 Direction.UP store_c7_after
      (by decide) (by decide)
  exact ⟨a, b, hne, hitems⟩

/-! ### C8: reorder_item rejects missing items and boundary moves -/

/-- C8: `reorder_item` returns `false` and leaves the store untouched when
the item id does not exist, or when the item sits at the boundary of its
order-sorted sibling group in the requested direction (index 0 for UP, last
index for DOWN). -/
theorem reorder_item_rejects_unchanged
    (m : NestedListManager) (item_id : Int) (d : Direction)
    (h : m.get_item_by_id item_id = none ∨
         ∃ it, m.get_item_by_id item_id = some it ∧
           ((d = Direction.UP ∧ sibling_index m it = 0) ∨
            (d = Direction.DOWN ∧ (sibling_group m it).length ≤ sibling_index m it + 1))) :
    m.reorder_item item_id d = (false, m) := by
  unfold NestedListManager.reorder_item
  cases hfind : m.get_item_by_id item_id with
  | none => rfl
  | some item =>
    rcases h with hnone | ⟨it, hsome, hb⟩
    · rw [hfind] at hnone; exact Option.noConfusion hnone
    · rw [hfind] at hsome
      injection hsome with hit
      subst hit
      rcases hb with ⟨hd, hidx⟩ | ⟨hd, hlen⟩
      · subst hd
        dsimp only
        rw [hidx]
        rfl
      · subst hd
        dsimp only
        rw [if_neg (Nat.not_lt.mpr hlen)]

/-- A store whose only sibling group has size 1. -/
def store_c8 : NestedListManager :=
  { items := [⟨0, "A", -1, 0⟩], active_index := 0, next_id := 1 }

/-- Witness for C8: in a sibling group of size 1 both `reorder_item(id, UP)`
and `reorder_item(id, DOWN)` return `false` with the store unchanged. -/
theorem reorder_item_rejects_unchanged_witness :
    store_c8.reorder_item 0 Direction.UP = (false, store_c8) ∧
    store_c8.reorder_item 0 Direction.DOWN = (false, store_c8) :=
  ⟨reorder_item_rejects_unchanged store_c8 0 Direction.UP
      (Or.inr ⟨⟨0, "A", -1, 0⟩, by decide⟩),
    reorder_item_rejects_unchanged store_c8 0 Direction.DOWN
      (Or.inr ⟨⟨0, "A", -1, 0⟩, by decide⟩)⟩

/-! ### The parent graph as a step relation -/

/-- One step up the parent graph: from an id to the `parent_id` of the first
item carrying it, `none` when no item carries the id. -/
def parent_step (m : NestedListManager) (x : Int) : Option Int :=
  (m.get_item_by_id x).map (fun it => it.parent_id)

/-- `n` steps up the parent graph from `x`; `none` once the walk falls off. -/
def walk_up (m : NestedListManager) : Int → Nat → Option Int
  | x, 0 => some x
  | x, n + 1 =>
    match parent_step m x with
    | none => none
    | some y => walk_up m y n

/-- Acyclicity of the parent graph: no id walks back to itself in one or more
steps, i.e. no item is its own ancestor under the `parent_id` relation. -/
def Acyclic (m : NestedListManager) : Prop :=
  ∀ x n, walk_up m x (n + 1) ≠ some x

/-- Splitting a walk: `a + b` steps are `a` steps followed by `b` steps. -/
theorem walk_up_add (m : NestedListManager) :
    ∀ (a b : Nat) (x : Int),
      walk_up m x (a + b) = (walk_up m x a).bind (fun y => walk_up m y b) := by
  intro a
  induction a with
  | zero => intro b x; simp [walk_up, Nat.zero_add]
  | succ a ih =>
    intro b x
    rw [Nat.succ_add]
    show (match parent_step m x with
          | none => none
          | some y => walk_up m y (a + b)) = _
    cases hps : parent_step m x with
    | none => simp [walk_up, hps]
    | some y =>
      show walk_up m y (a + b) = (walk_up m x (a + 1)).bind _
      rw [ih b y]
      have : walk_up m x (a + 1) = walk_up m y a := by
        show (match parent_step m x with
              | none => none
              | some z => walk_up m z a) = _
        rw [hps]
      rw [this]

/-- If the ancestor walk of `move_item` ends without meeting the target, then
no number of parent steps from its start ever lands on the target (the target
being an id that some item actually carries). -/
theorem cycle_walk_false_no_hit (m : NestedListManager) (t : Int)
    (it0 : NestedListItem) (ht : m.get_item_by_id t = some it0) :
    ∀ (fuel : Nat) (x : Int) (k : Nat) (v : Int),
      cycle_walk m t x fuel = some false → walk_up m x k = some v → v ≠ t := by
  intro fuel
  induction fuel with
  | zero => intro x k v hcw; exact absurd hcw (by simp [cycle_walk])
  | succ fuel ih =>
    intro x k v hcw hwalk
    rw [show cycle_walk m t x (fuel + 1) =
        (match m.get_item_by_id x with
         | none => some false
         | some cur =>
           if cur.id == t then some true else cycle_walk m t cur.parent_id fuel) from rfl]
      at hcw
    cases hfind : m.get_item_by_id x with
    | none =>
      cases k with
      | zero =>
        have hvx : v = x :=
          (Option.some.inj (show some x = some v from hwalk)).symm
        subst hvx
        intro hvt
        rw [hvt, ht] at hfind
        exact Option.noConfusion hfind
      | succ k =>
        rw [show walk_up m x (k + 1) =
            (match parent_step m x with
             | none => none
             | some y => walk_up m y k) from rfl] at hwalk
        rw [show parent_step m x = (m.get_item_by_id x).map (fun it => it.parent_id)
          from rfl, hfind] at hwalk
        exact Option.noConfusion hwalk
    | some cur =>
      rw [hfind] at hcw
      dsimp only at hcw
      cases hbeq : (cur.id == t) with
      | true => rw [if_pos hbeq] at hcw; simp at hcw
      | false =>
        rw [if_neg (by simp [hbeq] : ¬ (cur.id == t) = true)] at hcw
        cases k with
        | zero =>
          have hvx : v = x :=
            (Option.some.inj (show some x = some v from hwalk)).symm
          subst hvx
          have hxid : cur.id = v := get_item_by_id_id hfind
          intro hvt
          rw [hvt] at hxid
          rw [hxid] at hbeq
          simp at hbeq
        | succ k =>
          rw [show walk_up m x (k + 1) =
              (match parent_step m x with
               | none => none
               | some y => walk_up m y k) from rfl] at hwalk
          rw [show parent_step m x = (m.get_item_by_id x).map (fun it => it.parent_id)
            from rfl, hfind] at hwalk
          dsimp only [Option.map] at hwalk
          exact ih cur.parent_id k v hcw hwalk

/-! ### C3: move_item rejections leave the store untouched -/

/-- C3: `move_item` returns `false` with the whole store unchanged (same
items with the same fields, same `next_id`) whenever the item does not exist,
or the new parent is neither the sentinel -1 nor an existing item's id, or
the upward ancestor walk from the new parent reaches the item itself (the new
parent is the item or one of its descendants). -/
theorem move_item_rejects_unchanged
    (m : NestedListManager) (item_id new_parent_id : Int)
    (h : m.get_item_by_id item_id = none ∨
         (new_parent_id ≠ -1 ∧ m.get_item_by_id new_parent_id = none) ∨
         cycle_walk m item_id new_parent_id (m.items.length + 1) = some true) :
    m.move_item item_id new_parent_id = some (false, m) := by
  unfold NestedListManager.move_item
  cases hfind : m.get_item_by_id item_id with
  | none => rfl
  | some item =>
    rcases h with hnone | ⟨hne, hnp⟩ | hcw
    · rw [hfind] at hnone; exact Option.noConfusion hnone
    · have hg : (new_parent_id == -1 || (m.get_item_by_id new_parent_id).isSome) = false := by
        rw [hnp]
        simp [hne]
      rw [hg]
      rfl
    · have hg : (new_parent_id == -1 || (m.get_item_by_id new_parent_id).isSome) = true := by
        cases hnp : m.get_item_by_id new_parent_id with
        | some it => simp [hnp]
        | none =>
          exfalso
          rw [show cycle_walk m item_id new_parent_id (m.items.length + 1) =
              (match m.get_item_by_id new_parent_id with
               | none => some false
               | some cur =>
                 if cur.id == item_id then some true
                 else cycle_walk m item_id cur.parent_id m.items.length) from rfl,
            hnp] at hcw
          exact Bool.noConfusion (Option.some.inj hcw)
      rw [hg]
      dsimp only
      rw [hcw]
      rfl

/-- A chain A→B→C: C's parent is B, B's parent is A. -/
def store_c3 : NestedListManager :=
  { items := [⟨0, "A", -1, 0⟩, ⟨1, "B", 0, 0⟩, ⟨2, "C", 1, 0⟩],
    active_index := 0, next_id := 3 }

/-- Witness for C3: on the chain A→B→C, `move_item(A, C)` is rejected with
the three `parent_id` fields (indeed the whole store) unchanged, and
`move_item` with a nonexistent id is rejected the same way. -/
theorem move_item_rejects_unchanged_witness :
    store_c3.move_item 0 2 = some (false, store_c3) ∧
    store_c3.move_item 99 5 = some (false, store_c3) :=
  ⟨move_item_rejects_unchanged store_c3 0 2 (Or.inr (Or.inr (by decide))),
    move_item_rejects_unchanged store_c3 99 5 (Or.inl (by decide))⟩

/-! ### Termination of the ancestor walk on acyclic stores -/

/-- A duplicate-free list of ids that all belong to items of the store is no
longer than the store itself. -/
theorem nodup_ids_length_le (m : NestedListManager) (seen : List Int)
    (hnd : seen.Nodup)
    (hex : ∀ y ∈ seen, ∃ ity, m.get_item_by_id y = some ity) :
    seen.length ≤ m.items.length := by
  have hsub : seen.toFinset ⊆ (m.items.map (fun it => it.id)).toFinset := by
    intro y hy
    rw [List.mem_toFinset] at hy ⊢
    obtain ⟨ity, hity⟩ := hex y hy
    exact List.mem_map.mpr ⟨ity, get_item_by_id_mem hity, get_item_by_id_id hity⟩
  calc seen.length = seen.toFinset.card := (List.toFinset_card_of_nodup hnd).symm
    _ ≤ (m.items.map (fun it => it.id)).toFinset.card := Finset.card_le_card hsub
    _ ≤ (m.items.map (fun it => it.id)).length := List.toFinset_card_le _
    _ = m.items.length := List.length_map _ _

/-- On an acyclic store the ancestor walk always resolves within
`items.length + 1` lookups: the ids it visits are pairwise distinct (a repeat
would be a cycle) and each carries an item, so the walk runs out of fresh ids
before it runs out of fuel. -/
theorem cycle_walk_resolves (m : NestedListManager) (hacyc : Acyclic m) (t : Int) :
    ∀ (fuel : Nat) (x : Int) (seen : List Int), seen.Nodup →
      (∀ y ∈ seen, ∃ ity, m.get_item_by_id y = some ity) →
      (∀ y ∈ seen, ∃ k, walk_up m y (k + 1) = some x) →
      m.items.length + 1 ≤ seen.length + fuel →
      cycle_walk m t x fuel ≠ none := by
  intro fuel
  induction fuel with
  | zero =>
    intro x seen hnd hex hreach hlen
    exfalso
    have := nodup_ids_length_le m seen hnd hex
    omega
  | succ fuel ih =>
    intro x seen hnd hex hreach hlen
    rw [show cycle_walk m t x (fuel + 1) =
        (match m.get_item_by_id x with
         | none => some false
         | some cur =>
           if cur.id == t then some true else cycle_walk m t cur.parent_id fuel) from rfl]
    cases hfind : m.get_item_by_id x with
    | none => exact Option.noConfusion
    | some cur =>
      dsimp only
      cases hbeq : (cur.id == t) with
      | true => simp
      | false =>
        rw [if_neg Bool.false_ne_true]
        have hxnot : x ∉ seen := by
          intro hx
          obtain ⟨k, hk⟩ := hreach x hx
          exact hacyc x k hk
        have hstep : walk_up m x 1 = some cur.parent_id := by
          show (match parent_step m x with
                | none => none
                | some y => walk_up m y 0) = _
          rw [show parent_step m x = (m.get_item_by_id x).map (fun it => it.parent_id)
            from rfl, hfind]
          rfl
        refine ih cur.parent_id (x :: seen) (List.nodup_cons.mpr ⟨hxnot, hnd⟩) ?_ ?_ ?_
        · intro y hy
          rcases List.mem_cons.mp hy with hyx | hys
          · exact ⟨cur, hyx ▸ hfind⟩
          · exact hex y hys
        · intro y hy
          rcases List.mem_cons.mp hy with hyx | hys
          · exact ⟨0, hyx ▸ hstep⟩
          · obtain ⟨k, hk⟩ := hreach y hys
            refine ⟨k + 1, ?_⟩
            rw [walk_up_add m (k + 1) 1 y, hk]
            exact hstep
        · simp only [List.length_cons]
          omega

/-! ### C6: termination of the store operations -/

/-- C6 counterexample: a store reachable by three `add_item` calls (the first
two with not-yet-existing parent ids, producing the two-cycle 0 ⇄ 1) on which
`move_item(2, 0)` never terminates: the ancestor walk from item 0 circles the
0 ⇄ 1 cycle forever without ever meeting item 2 and without falling off the
tree.  In the embedding the diverging walk is exactly `move_item` returning
`none`. -/
def store_c6 : NestedListManager :=
  (((initial_manager.add_item "a" 1).2.add_item "b" 0).2.add_item "c" (-1)).2

/-! ### Reachable store states -/

/-- States reachable from the fresh manager by any sequence of `add_item`,
`move_item` and `reorder_item` calls with arbitrary arguments.  A `move_item`
call contributes a successor state only when it terminates (returns `some`). -/
inductive ReachableAny : NestedListManager → Prop where
  | start : ReachableAny initial_manager
  | add : ∀ (m : NestedListManager) (name : String) (p : Int),
      ReachableAny m → ReachableAny (m.add_item name p).2
  | move : ∀ (m : NestedListManager) (item_id p : Int) (b : Bool)
      (m' : NestedListManager),
      ReachableAny m → m.move_item item_id p = some (b, m') → ReachableAny m'
  | reorder : ∀ (m : NestedListManager) (item_id : Int) (d : Direction),
      ReachableAny m → ReachableAny (m.reorder_item item_id d).2

/-- States reachable when every `add_item` call passes the sentinel -1 or the
id of an item existing at call time — the precondition the design expects
callers to respect; `move_item` and `reorder_item` stay unrestricted. -/
inductive ReachableValid : NestedListManager → Prop where
  | start : ReachableValid initial_manager
  | add : ∀ (m : NestedListManager) (name : String) (p : Int),
      ReachableValid m → (p = -1 ∨ (m.get_item_by_id p).isSome = true) →
      ReachableValid (m.add_item name p).2
  | move : ∀ (m : NestedListManager) (item_id p : Int) (b : Bool)
      (m' : NestedListManager),
      ReachableValid m → m.move_item item_id p = some (b, m') → ReachableValid m'
  | reorder : ∀ (m : NestedListManager) (item_id : Int) (d : Direction),
      ReachableValid m → ReachableValid (m.reorder_item item_id d).2

/-- C6 counterexample: `store_c6` is reachable (three `add_item` calls, the
first two with not-yet-existing parent ids, creating the parent cycle 0 ⇄ 1),
yet `move_item(2, 0)` does not terminate on it: its ancestor walk circles
0 ⇄ 1 forever without meeting item 2 and without falling off the tree, which
the embedding renders as `move_item` returning `none`. -/
theorem move_item_divergence_counterexample :
    ReachableAny store_c6 ∧ store_c6.move_item 2 0 = none :=
  ⟨ReachableAny.add _ "c" (-1)
      (ReachableAny.add _ "b" 0 (ReachableAny.add _ "a" 1 ReachableAny.start)),
    by decide⟩

/-- C6 (amended): on every store whose parent graph is acyclic — in
particular on every state reachable while `add_item` is given only existing
or sentinel parents — `move_item` terminates; all remaining operations
(`add_item`, the lookups, `reorder_item`, `flatten_hierarchy`) iterate over
the finite collection and are total by construction, `move_item`'s ancestor
walk being the single unbounded loop of the source. -/
theorem move_item_terminates_on_acyclic
    (m : NestedListManager) (hacyc : Acyclic m) (item_id new_parent_id : Int) :
    m.move_item item_id new_parent_id ≠ none := by
  unfold NestedListManager.move_item
  cases hfind : m.get_item_by_id item_id with
  | none => exact Option.noConfusion
  | some item =>
    cases hg : (new_parent_id == -1 || (m.get_item_by_id new_parent_id).isSome) with
    | false => simp
    | true =>
      rw [if_pos rfl]
      cases hcw : cycle_walk m item_id new_parent_id (m.items.length + 1) with
      | none =>
        exact absurd hcw
          (cycle_walk_resolves m hacyc item_id (m.items.length + 1) new_parent_id []
            List.nodup_nil (by simp) (by simp) (by simp))
      | some b => cases b <;> simp

/-- Witness for C6: the fresh manager is acyclic (its parent graph has no
edges at all), so the theorem yields termination of `move_item` there. -/
theorem move_item_terminates_on_acyclic_witness :
    initial_manager.move_item 0 0 ≠ none :=
  move_item_terminates_on_acyclic initial_manager
    (fun x n h => by
      have hnone : walk_up initial_manager x (n + 1) = none := by
        show (match parent_step initial_manager x with
              | none => none
              | some y => walk_up initial_manager y n) = none
        rfl
      rw [hnone] at h
      exact Option.noConfusion h)
    0 0

/-! ### Transferring walks between stores that share the parent graph -/

/-- Unfolding one step of `walk_up`. -/
theorem walk_up_succ (m : NestedListManager) (x : Int) (k : Nat) :
    walk_up m x (k + 1) = (parent_step m x).bind (fun y => walk_up m y k) := by
  show (match parent_step m x with
        | none => none
        | some y => walk_up m y k) = _
  cases parent_step m x <;> rfl

/-- `find?` on an id keyed predicate commutes with an id-preserving map. -/
theorem find_map_id (h : NestedListItem → NestedListItem)
    (hid : ∀ it, (h it).id = it.id) :
    ∀ (l : List NestedListItem) (x : Int),
      (l.map h).find? (fun it => it.id == x) =
        (l.find? (fun it => it.id == x)).map h := by
  intro l x
  induction l with
  | nil => rfl
  | cons a l ih =>
    rw [List.map_cons, List.find?_cons, List.find?_cons, hid a]
    cases hpa : (a.id == x) with
    | true => rfl
    | false => exact ih

/-- Parent step of a store whose items were rewritten by an id-preserving
function. -/
theorem parent_step_map (m : NestedListManager) (h : NestedListItem → NestedListItem)
    (hid : ∀ it, (h it).id = it.id) (x : Int) :
    parent_step { m with items := m.items.map h } x =
      (m.get_item_by_id x).map (fun it => (h it).parent_id) := by
  show ((m.items.map h).find? (fun it => it.id == x)).map (fun it => it.parent_id) =
    (m.items.find? (fun it => it.id == x)).map (fun it => (h it).parent_id)
  rw [find_map_id h hid]
  cases m.items.find? (fun it => it.id == x) <;> rfl

/-- Stores with identical parent steps have identical walks. -/
theorem walk_up_congr (m m' : NestedListManager)
    (h : ∀ x, parent_step m' x = parent_step m x) :
    ∀ (k : Nat) (x : Int), walk_up m' x k = walk_up m x k := by
  intro k
  induction k with
  | zero => intro x; rfl
  | succ k ih =>
    intro x
    rw [walk_up_succ, walk_up_succ, h x]
    cases parent_step m x with
    | none => rfl
    | some y =>
      dsimp only [Option.bind]
      exact ih y

/-- Acyclicity transfers along parent-step equality. -/
theorem acyclic_congr (m m' : NestedListManager)
    (h : ∀ x, parent_step m' x = parent_step m x) (hacyc : Acyclic m) : Acyclic m' :=
  fun x n hw => hacyc x n (walk_up_congr m m' h (n + 1) x ▸ hw)

/-- In a store that redirects only the parent edge of `iid`, a walk that
starts elsewhere either agrees with the original store or passes through
`iid`. -/
theorem walk_up_congr_off (m m' : NestedListManager) (iid p : Int)
    (hps : ∀ x, parent_step m' x = if x = iid then some p else parent_step m x) :
    ∀ (k : Nat) (x : Int), x ≠ iid →
      walk_up m' x k = walk_up m x k ∨ ∃ j ≤ k, walk_up m' x j = some iid := by
  intro k
  induction k with
  | zero => intro x _; exact Or.inl rfl
  | succ k ih =>
    intro x hx
    have hpx : parent_step m' x = parent_step m x := by rw [hps x, if_neg hx]
    cases hpy : parent_step m x with
    | none =>
      left
      rw [walk_up_succ, walk_up_succ, hpx, hpy]
      rfl
    | some y =>
      by_cases hy : y = iid
      · right
        refine ⟨1, by omega, ?_⟩
        rw [walk_up_succ, hpx, hpy]
        dsimp only [Option.bind]
        rw [hy]
        rfl
      · rcases ih y hy with heq | ⟨j, hj, hw⟩
        · left
          rw [walk_up_succ, walk_up_succ, hpx, hpy]
          dsimp only [Option.bind]
          exact heq
        · right
          refine ⟨j + 1, by omega, ?_⟩
          rw [walk_up_succ, hpx, hpy]
          dsimp only [Option.bind]
          exact hw

/-- In a store that redirects only the parent edge of `iid`, any arrival at
`iid` was already possible in the original store. -/
theorem walk_up_arrival (m m' : NestedListManager) (iid p : Int)
    (hps : ∀ x, parent_step m' x = if x = iid then some p else parent_step m x) :
    ∀ (k : Nat) (x : Int), walk_up m' x k = some iid →
      ∃ j ≤ k, walk_up m x j = some iid := by
  intro k
  induction k with
  | zero => intro x h; exact ⟨0, Nat.le_refl 0, h⟩
  | succ k ih =>
    intro x h
    by_cases hx : x = iid
    · exact ⟨0, Nat.zero_le _, by rw [hx]; rfl⟩
    · have hpx : parent_step m' x = parent_step m x := by rw [hps x, if_neg hx]
      rw [walk_up_succ, hpx] at h
      cases hpy : parent_step m x with
      | none => rw [hpy] at h; exact Option.noConfusion h
      | some y =>
        rw [hpy] at h
        dsimp only [Option.bind] at h
        obtain ⟨j, hj, hw⟩ := ih y h
        refine ⟨j + 1, Nat.succ_le_succ hj, ?_⟩
        rw [walk_up_succ, hpy]
        exact hw

/-! ### Shape of the three mutating operations -/

/-- Field update performed on the moved item by a successful `move_item`:
new parent and a recomputed order, everything else untouched. -/
def move_update (iid p ord : Int) (it : NestedListItem) : NestedListItem :=
  if it.id == iid then { it with parent_id := p, order := ord } else it

/-- `move_update` never changes ids. -/
theorem move_update_id (iid p ord : Int) (it : NestedListItem) :
    (move_update iid p ord it).id = it.id := by
  unfold move_update
  split <;> rfl

/-- The two successive in-place writes of a successful `move_item` (first
`parent_id`, then `order`) compose to `move_update`. -/
theorem move_maps_compose (iid p ord : Int) (it : NestedListItem) :
    (fun a => if a.id == iid then { a with order := ord } else a)
      ((fun a => if a.id == iid then { a with parent_id := p } else a) it) =
    move_update iid p ord it := by
  unfold move_update
  cases hbeq : (it.id == iid) with
  | true => simp [hbeq]
  | false => simp [hbeq]

/-- Structure of the store produced by `add_item`: the fresh item (carrying
id `next_id` and parent `parent_id`) is appended and the counter advances. -/
theorem add_item_shape (m : NestedListManager) (name : String) (p : Int) :
    ∃ ord : Int,
      (m.add_item name p).2.items =
        m.items ++ [{ id := m.next_id, name := name, parent_id := p, order := ord }] ∧
      (m.add_item name p).2.next_id = m.next_id + 1 ∧
      (m.add_item name p).2.active_index = m.active_index ∧
      (m.add_item name p).1 = m.next_id :=
  ⟨_, rfl, rfl, rfl, rfl⟩

/-- Inverting a successful `move_item`: the item exists, the target parent
passed the guard, the ancestor walk ended off-tree, and the result rewrites
exactly the moved item's `parent_id` and `order`. -/
theorem move_item_success_shape (m : NestedListManager) (iid p : Int)
    (m' : NestedListManager) (h : m.move_item iid p = some (true, m')) :
    ∃ (it0 : NestedListItem) (ord : Int),
      m.get_item_by_id iid = some it0 ∧
      (p = -1 ∨ ∃ itp, m.get_item_by_id p = some itp) ∧
      cycle_walk m iid p (m.items.length + 1) = some false ∧
      m'.items = m.items.map (move_update iid p ord) ∧
      m'.next_id = m.next_id ∧ m'.active_index = m.active_index := by
  unfold NestedListManager.move_item at h
  cases hfind : m.get_item_by_id iid with
  | none => rw [hfind] at h; simp at h
  | some it0 =>
    rw [hfind] at h
    cases hg : (p == -1 || (m.get_item_by_id p).isSome) with
    | false => rw [hg] at h; simp at h
    | true =>
      rw [hg, if_pos rfl] at h
      have hpd : p = -1 ∨ ∃ itp, m.get_item_by_id p = some itp := by
        rcases (Bool.or_eq_true _ _ ▸ hg : (p == -1) = true ∨
            (m.get_item_by_id p).isSome = true) with h1 | h2
        · exact Or.inl (beq_iff_eq.mp h1)
        · exact Or.inr (Option.isSome_iff_exists.mp h2)
      cases hcw : cycle_walk m iid p (m.items.length + 1) with
      | none => rw [hcw] at h; exact Option.noConfusion h
      | some b =>
        cases b with
        | true => rw [hcw] at h; simp at h
        | false =>
          rw [hcw] at h
          dsimp only at h
          injection h with h1
          injection h1 with hb hm'
          refine ⟨it0,
            ({ m with items := m.items.map (fun it =>
                if it.id == iid then { it with parent_id := p } else it) }
              : NestedListManager).get_next_order p,
            rfl, hpd, rfl, ?_, ?_, ?_⟩
          · rw [← hm']
            dsimp only
            rw [List.map_map]
            refine List.map_congr_left ?_
            intro it _
            exact move_maps_compose iid p _ it
          · rw [← hm']
          · rw [← hm']

/-- A rejected `move_item` hands back the untouched store. -/
theorem move_item_false_shape (m : NestedListManager) (iid p : Int)
    (m' : NestedListManager) (h : m.move_item iid p = some (false, m')) : m' = m := by
  unfold NestedListManager.move_item at h
  cases hfind : m.get_item_by_id iid with
  | none =>
    rw [hfind] at h
    injection h with h1
    injection h1 with hb hm'
    exact hm'.symm
  | some it0 =>
    rw [hfind] at h
    cases hg : (p == -1 || (m.get_item_by_id p).isSome) with
    | false =>
      rw [hg] at h
      rw [if_neg Bool.false_ne_true] at h
      injection h with h1
      injection h1 with hb hm'
      exact hm'.symm
    | true =>
      rw [hg, if_pos rfl] at h
      cases hcw : cycle_walk m iid p (m.items.length + 1) with
      | none => rw [hcw] at h; exact Option.noConfusion h
      | some b =>
        cases b with
        | true =>
          rw [hcw] at h
          injection h with h1
          injection h1 with hb hm'
          exact hm'.symm
        | false => rw [hcw] at h; simp at h

/-- The store returned by `reorder_item` is either untouched or an
order-only rewrite of two items. -/
theorem reorder_item_shape (m : NestedListManager) (iid : Int) (d : Direction) :
    (m.reorder_item iid d).2 = m ∨
    ∃ a b : NestedListItem,
      (m.reorder_item iid d).2.items = m.items.map (fun it =>
        if it.id == a.id then { it with order := b.order }
        else if it.id == b.id then { it with order := a.order }
        else it) ∧
      (m.reorder_item iid d).2.next_id = m.next_id ∧
      (m.reorder_item iid d).2.active_index = m.active_index := by
  unfold NestedListManager.reorder_item
  cases hfind : m.get_item_by_id iid with
  | none => exact Or.inl rfl
  | some item =>
    cases d with
    | UP =>
      dsimp only
      by_cases h0 : 0 < sibling_index m item
      · rw [if_pos h0]
        cases hget : (sibling_group m item)[sibling_index m item - 1]? with
        | none => exact Or.inl rfl
        | some sw => exact Or.inr ⟨item, sw, rfl, rfl, rfl⟩
      · rw [if_neg h0]; exact Or.inl rfl
    | DOWN =>
      dsimp only
      by_cases h0 : sibling_index m item + 1 < (sibling_group m item).length
      · rw [if_pos h0]
        cases hget : (sibling_group m item)[sibling_index m item + 1]? with
        | none => exact Or.inl rfl
        | some sw => exact Or.inr ⟨item, sw, rfl, rfl, rfl⟩
      · rw [if_neg h0]; exact Or.inl rfl

/-! ### How each mutation acts on the parent graph -/

/-- An id-and-parent-preserving rewrite of the items leaves the parent graph
untouched. -/
theorem parent_step_preserved_map (m m' : NestedListManager)
    (h : NestedListItem → NestedListItem)
    (hid : ∀ it, (h it).id = it.id) (hpar : ∀ it, (h it).parent_id = it.parent_id)
    (hm' : m'.items = m.items.map h) :
    ∀ x, parent_step m' x = parent_step m x := by
  intro x
  have h1 : parent_step m' x = parent_step { m with items := m.items.map h } x := by
    unfold parent_step NestedListManager.get_item_by_id
    rw [hm']
  rw [h1, parent_step_map m h hid]
  unfold parent_step NestedListManager.get_item_by_id
  cases m.items.find? (fun it => it.id == x) with
  | none => rfl
  | some it =>
    dsimp only [Option.map]
    rw [hpar it]

/-- A successful move redirects exactly the moved item's parent edge. -/
theorem parent_step_move (m : NestedListManager) (iid p ord : Int)
    (it0 : NestedListItem) (hfind : m.get_item_by_id iid = some it0)
    (m' : NestedListManager) (hm' : m'.items = m.items.map (move_update iid p ord)) :
    ∀ x, parent_step m' x = if x = iid then some p else parent_step m x := by
  intro x
  have h1 : parent_step m' x =
      parent_step { m with items := m.items.map (move_update iid p ord) } x := by
    unfold parent_step NestedListManager.get_item_by_id
    rw [hm']
  rw [h1, parent_step_map m (move_update iid p ord) (move_update_id iid p ord)]
  by_cases hx : x = iid
  · subst hx
    rw [hfind, if_pos rfl]
    dsimp only [Option.map]
    unfold move_update
    rw [if_pos (beq_iff_eq.mpr (get_item_by_id_id hfind))]
  · rw [if_neg hx]
    unfold parent_step
    cases hgx : m.get_item_by_id x with
    | none => rfl
    | some it =>
      dsimp only [Option.map]
      unfold move_update
      rw [if_neg (by
        rw [beq_eq_false_iff_ne.mpr (get_item_by_id_id hgx ▸ hx)]
        exact Bool.false_ne_true)]

/-- The fresh item of `add_item` only adds an edge out of its own (fresh)
id. -/
theorem parent_step_add (m : NestedListManager) (A : NestedListItem)
    (m' : NestedListManager) (hm' : m'.items = m.items ++ [A])
    (hfresh : ∀ it ∈ m.items, it.id ≠ A.id) :
    ∀ x, parent_step m' x = if x = A.id then some A.parent_id else parent_step m x := by
  intro x
  have h1 : parent_step m' x =
      ((m.items ++ [A]).find? (fun it => it.id == x)).map (fun it => it.parent_id) := by
    unfold parent_step NestedListManager.get_item_by_id
    rw [hm']
  rw [h1, List.find?_append]
  by_cases hx : x = A.id
  · subst hx
    have hnone : m.items.find? (fun it => it.id == A.id) = none :=
      List.find?_eq_none.mpr (fun it hit => by
        rw [beq_eq_false_iff_ne.mpr (hfresh it hit)]
        exact Bool.false_ne_true)
    rw [hnone, if_pos rfl, Option.none_or, List.find?_cons,
      show (A.id == A.id) = true from beq_iff_eq.mpr rfl]
    rfl
  · rw [if_neg hx]
    have hA : [A].find? (fun it => it.id == x) = none := by
      rw [List.find?_cons,
        show (A.id == x) = false from beq_eq_false_iff_ne.mpr (fun he => hx he.symm)]
      rfl
    rw [hA, Option.or_none]
    rfl

/-- Walks that start away from the fresh id never meet it, hence agree with
the original store. -/
theorem walk_up_congr_add (m m' : NestedListManager) (a : Int)
    (hps : ∀ x, x ≠ a → parent_step m' x = parent_step m x)
    (hnoA : ∀ y, parent_step m y ≠ some a) :
    ∀ (k : Nat) (x : Int), x ≠ a → walk_up m' x k = walk_up m x k := by
  intro k
  induction k with
  | zero => intro x _; rfl
  | succ k ih =>
    intro x hx
    rw [walk_up_succ, walk_up_succ, hps x hx]
    cases hpy : parent_step m x with
    | none => rfl
    | some y =>
      dsimp only [Option.bind]
      exact ih y (fun hye => hnoA x (hye ▸ hpy))

/-- If no edge of the store points at `a`, a walk only reaches `a` from `a`
itself. -/
theorem walk_up_no_arrival (m : NestedListManager) (a : Int)
    (hnoA : ∀ y, parent_step m y ≠ some a) :
    ∀ (k : Nat) (x : Int), walk_up m x k = some a → x = a := by
  intro k
  induction k with
  | zero => intro x h; exact Option.some.inj h
  | succ k ih =>
    intro x h
    rw [walk_up_succ] at h
    cases hpy : parent_step m x with
    | none => rw [hpy] at h; exact Option.noConfusion h
    | some y =>
      rw [hpy] at h
      dsimp only [Option.bind] at h
      exact absurd (ih y h ▸ hpy) (hnoA x)

/-- Appending an item whose id is pointed at by no edge (old or new) keeps
the parent graph acyclic. -/
theorem acyclic_add_preserved (m m' : NestedListManager) (a pa : Int)
    (hps : ∀ x, parent_step m' x = if x = a then some pa else parent_step m x)
    (hnoA : ∀ y, parent_step m y ≠ some a)
    (hpa : pa ≠ a)
    (hacyc : Acyclic m) : Acyclic m' := by
  have hps' : ∀ x, x ≠ a → parent_step m' x = parent_step m x := fun x hx => by
    rw [hps x, if_neg hx]
  intro x n h
  by_cases hx : x = a
  · rw [hx] at h
    rw [walk_up_succ, hps a, if_pos rfl] at h
    dsimp only [Option.bind] at h
    have hold : walk_up m pa n = some a := by
      rw [← walk_up_congr_add m m' a hps' hnoA n pa hpa]
      exact h
    exact hpa (walk_up_no_arrival m a hnoA n pa hold)
  · exact hacyc x n (walk_up_congr_add m m' a hps' hnoA (n + 1) x hx ▸ h)

/-- A successful `move_item` keeps the parent graph acyclic: the guard walked
up from the new parent without meeting the moved item, so the redirected edge
cannot close a cycle. -/
theorem acyclic_move_preserved (m m' : NestedListManager) (iid p : Int)
    (it0 : NestedListItem) (hfind : m.get_item_by_id iid = some it0)
    (hcw : cycle_walk m iid p (m.items.length + 1) = some false)
    (hps : ∀ x, parent_step m' x = if x = iid then some p else parent_step m x)
    (hacyc : Acyclic m) : Acyclic m' := by
  have hpne : p ≠ iid := by
    intro hpe
    have htrue : cycle_walk m iid iid (m.items.length + 1) = some true := by
      rw [show cycle_walk m iid iid (m.items.length + 1) =
          (match m.get_item_by_id iid with
           | none => some false
           | some cur =>
             if cur.id == iid then some true
             else cycle_walk m iid cur.parent_id m.items.length) from rfl, hfind]
      dsimp only
      rw [if_pos (beq_iff_eq.mpr (get_item_by_id_id hfind))]
    rw [hpe, htrue] at hcw
    simp at hcw
  have hNC : ∀ n, walk_up m' iid (n + 1) ≠ some iid := by
    intro n h
    rw [walk_up_succ, hps iid, if_pos rfl] at h
    dsimp only [Option.bind] at h
    obtain ⟨j, hj, hw⟩ := walk_up_arrival m m' iid p hps n p h
    exact cycle_walk_false_no_hit m iid it0 hfind (m.items.length + 1) p j iid hcw hw rfl
  intro x n h
  by_cases hx : x = iid
  · subst hx
    exact hNC n h
  · rcases walk_up_congr_off m m' iid p hps (n + 1) x hx with heq | ⟨j, hj, hw⟩
    · exact hacyc x n (heq ▸ h)
    · have h1 : walk_up m' x (j + (n + 1 - j)) = some x := by
        rw [Nat.add_sub_cancel' hj]
        exact h
      rw [walk_up_add m' j (n + 1 - j) x, hw] at h1
      dsimp only [Option.bind] at h1
      have h2 : walk_up m' iid ((n + 1 - j) + j) = some iid := by
        rw [walk_up_add m' (n + 1 - j) j iid, h1]
        dsimp only [Option.bind]
        exact hw
      rw [Nat.sub_add_cancel hj] at h2
      exact hNC n h2

/-! ### The reachable-store invariant -/

/-- Invariant of stores built through the valid-parent discipline: the
counter is nonnegative, every id lies in `[0, next_id)`, every parent id is
the sentinel or lies in `[0, next_id)`, and the parent graph is acyclic. -/
def StoreInv (m : NestedListManager) : Prop :=
  0 ≤ m.next_id ∧
  (∀ it ∈ m.items, 0 ≤ it.id ∧ it.id < m.next_id) ∧
  (∀ it ∈ m.items, it.parent_id = -1 ∨ (0 ≤ it.parent_id ∧ it.parent_id < m.next_id)) ∧
  Acyclic m

/-- The fresh manager has no parent edges at all. -/
theorem acyclic_initial : Acyclic initial_manager := by
  intro x n h
  rw [walk_up_succ, show parent_step initial_manager x = none from rfl] at h
  exact Option.noConfusion h

/-- The fresh manager satisfies the invariant. -/
theorem store_inv_initial : StoreInv initial_manager :=
  ⟨le_refl 0, by simp [initial_manager], by simp [initial_manager], acyclic_initial⟩

/-- No parent edge of an invariant-satisfying store points at `next_id`. -/
theorem no_edge_to_next_id (m : NestedListManager) (hinv : StoreInv m) :
    ∀ y, parent_step m y ≠ some m.next_id := by
  intro y hy
  unfold parent_step at hy
  cases hg : m.get_item_by_id y with
  | none => rw [hg] at hy; exact Option.noConfusion hy
  | some it =>
    rw [hg] at hy
    dsimp only [Option.map] at hy
    have hpe : it.parent_id = m.next_id := Option.some.inj hy
    have h0 : (0 : Int) ≤ m.next_id := hinv.1
    rcases hinv.2.2.1 it (get_item_by_id_mem hg) with h1 | h2
    · omega
    · omega

/-- `add_item` preserves the invariant when the requested parent is the
sentinel or an existing item. -/
theorem store_inv_add (m : NestedListManager) (name : String) (p : Int)
    (hinv : StoreInv m) (hp : p = -1 ∨ (m.get_item_by_id p).isSome = true) :
    StoreInv (m.add_item name p).2 := by
  obtain ⟨ord, hitems, hnext, hact, hret⟩ := add_item_shape m name p
  have hpbound : p = -1 ∨ (0 ≤ p ∧ p < m.next_id) := by
    rcases hp with h1 | h2
    · exact Or.inl h1
    · obtain ⟨itp, hitp⟩ := Option.isSome_iff_exists.mp h2
      have := hinv.2.1 itp (get_item_by_id_mem hitp)
      have hid := get_item_by_id_id hitp
      exact Or.inr (by omega)
  have h0 : (0 : Int) ≤ m.next_id := hinv.1
  refine ⟨?_, ?_, ?_, ?_⟩
  · rw [hnext]; omega
  · intro it hit
    rw [hitems] at hit
    rcases List.mem_append.mp hit with hold | hnew
    · have := hinv.2.1 it hold
      rw [hnext]
      omega
    · have heq : it = { id := m.next_id, name := name, parent_id := p, order := ord } := by
        simpa using hnew
      rw [heq, hnext]
      show 0 ≤ m.next_id ∧ m.next_id < m.next_id + 1
      omega
  · intro it hit
    rw [hitems] at hit
    rcases List.mem_append.mp hit with hold | hnew
    · rcases hinv.2.2.1 it hold with h1 | h2
      · exact Or.inl h1
      · rw [hnext]; exact Or.inr (by omega)
    · have heq : it = { id := m.next_id, name := name, parent_id := p, order := ord } := by
        simpa using hnew
      rw [heq, hnext]
      show p = -1 ∨ (0 ≤ p ∧ p < m.next_id + 1)
      rcases hpbound with h1 | h2
      · exact Or.inl h1
      · exact Or.inr (by omega)
  · refine acyclic_add_preserved m (m.add_item name p).2 m.next_id p ?_
      (no_edge_to_next_id m hinv) ?_ hinv.2.2.2
    · have := parent_step_add m
        { id := m.next_id, name := name, parent_id := p, order := ord }
        (m.add_item name p).2 hitems
        (fun it hit => by
          have := hinv.2.1 it hit
          show it.id ≠ m.next_id
          omega)
      exact this
    · show p ≠ m.next_id
      rcases hpbound with h1 | h2 <;> omega

/-- `move_item` preserves the invariant. -/
theorem store_inv_move (m : NestedListManager) (iid p : Int) (b : Bool)
    (m' : NestedListManager) (hinv : StoreInv m)
    (h : m.move_item iid p = some (b, m')) : StoreInv m' := by
  cases b with
  | false => rw [move_item_false_shape m iid p m' h]; exact hinv
  | true =>
    obtain ⟨it0, ord, hfind, hpd, hcw, hitems, hnext, hact⟩ :=
      move_item_success_shape m iid p m' h
    have hpbound : p = -1 ∨ (0 ≤ p ∧ p < m.next_id) := by
      rcases hpd with h1 | ⟨itp, hitp⟩
      · exact Or.inl h1
      · have := hinv.2.1 itp (get_item_by_id_mem hitp)
        have hid := get_item_by_id_id hitp
        exact Or.inr (by omega)
    refine ⟨by rw [hnext]; exact hinv.1, ?_, ?_, ?_⟩
    · intro it hit
      rw [hitems] at hit
      obtain ⟨it1, hmem1, heq1⟩ := List.mem_map.mp hit
      have := hinv.2.1 it1 hmem1
      rw [← heq1, move_update_id, hnext]
      exact this
    · intro it hit
      rw [hitems] at hit
      obtain ⟨it1, hmem1, heq1⟩ := List.mem_map.mp hit
      rw [← heq1, hnext]
      unfold move_update
      cases hbeq : (it1.id == iid) with
      | true =>
        rw [if_pos rfl]
        show p = -1 ∨ (0 ≤ p ∧ p < m.next_id)
        exact hpbound
      | false =>
        rw [if_neg Bool.false_ne_true]
        exact hinv.2.2.1 it1 hmem1
    · exact acyclic_move_preserved m m' iid p it0 hfind hcw
        (parent_step_move m iid p ord it0 hfind m' hitems) hinv.2.2.2

/-- `reorder_item` preserves the invariant: it rewrites only `order`
fields. -/
theorem store_inv_reorder (m : NestedListManager) (iid : Int) (d : Direction)
    (hinv : StoreInv m) : StoreInv (m.reorder_item iid d).2 := by
  rcases reorder_item_shape m iid d with heq | ⟨a, b, hitems, hnext, hact⟩
  · rw [heq]; exact hinv
  · have hid : ∀ it : NestedListItem,
        ((fun it => if it.id == a.id then { it with order := b.order }
          else if it.id == b.id then { it with order := a.order } else it) it).id = it.id := by
      intro it
      dsimp only
      split
      · rfl
      · split <;> rfl
    have hpar : ∀ it : NestedListItem,
        ((fun it => if it.id == a.id then { it with order := b.order }
          else if it.id == b.id then { it with order := a.order } else it) it).parent_id =
          it.parent_id := by
      intro it
      dsimp only
      split
      · rfl
      · split <;> rfl
    have hps := parent_step_preserved_map m (m.reorder_item iid d).2 _ hid hpar hitems
    refine ⟨by rw [hnext]; exact hinv.1, ?_, ?_, acyclic_congr m _ hps hinv.2.2.2⟩
    · intro it hit
      rw [hitems] at hit
      obtain ⟨it1, hmem1, heq1⟩ := List.mem_map.mp hit
      rw [← heq1, hid it1, hnext]
      exact hinv.2.1 it1 hmem1
    · intro it hit
      rw [hitems] at hit
      obtain ⟨it1, hmem1, heq1⟩ := List.mem_map.mp hit
      rw [← heq1, hpar it1, hnext]
      exact hinv.2.2.1 it1 hmem1

/-- Every store reachable under the valid-parent discipline satisfies the
invariant. -/
theorem reachable_valid_inv (m : NestedListManager) (h : ReachableValid m) :
    StoreInv m := by
  induction h with
  | start => exact store_inv_initial
  | add m name p hr hp ih => exact store_inv_add m name p ih hp
  | move m iid p b m' hr hmv ih => exact store_inv_move m iid p b m' ih hmv
  | reorder m iid d hr ih => exact store_inv_reorder m iid d ih

/-! ### C2: acyclicity of reachable stores -/

/-- C2 counterexample: the claim quantifies over `add_item` calls with
arbitrary arguments, and `add_item("A", 0)` on the empty store hands the new
item (which receives id 0) the parent id 0 — the item becomes its own parent,
so this reachable store has an item that is its own ancestor. -/
theorem reachable_cycle_counterexample :
    ReachableAny (initial_manager.add_item "A" 0).2 ∧
    ¬ Acyclic (initial_manager.add_item "A" 0).2 :=
  ⟨ReachableAny.add initial_manager "A" 0 ReachableAny.start,
    fun h => h 0 0 (by decide)⟩

/-- C2 (amended): in every store reachable from the empty store by `add_item`
calls whose parent argument is the sentinel -1 or the id of an existing item,
together with arbitrary `move_item` and `reorder_item` calls, the parent
graph is acyclic: no item is its own ancestor under the `parent_id`
relation.  (`add_item` with a dangling parent id can break this — see the
counterexample — because the code never validates the parent at add time.) -/
theorem reachable_valid_acyclic (m : NestedListManager) (h : ReachableValid m) :
    Acyclic m :=
  (reachable_valid_inv m h).2.2.2

/-- Witness for the amended C2 at a concrete reachable store. -/
theorem reachable_valid_acyclic_witness :
    Acyclic (initial_manager.add_item "A" (-1)).2 :=
  reachable_valid_acyclic _
    (ReachableValid.add initial_manager "A" (-1) ReachableValid.start (Or.inl rfl))

/-! ### C5: id allocation across arbitrary operation sequences -/

/-- One call against the manager, as issued by the host operators: the three
manager mutations plus the remove operator's `items.remove(index)`. -/
inductive Op where
  | add (name : String) (parent_id : Int) : Op
  | move (item_id new_parent_id : Int) : Op
  | reorder (item_id : Int) (d : Direction) : Op
  | remove (index : Nat) : Op

/-- Apply one operation, accumulating the ids returned by `add_item`;
`none` when a `move_item` call diverges. -/
def apply_op : NestedListManager × List Int → Op → Option (NestedListManager × List Int)
  | (m, rids), Op.add name p =>
    some ((m.add_item name p).2, rids ++ [(m.add_item name p).1])
  | (m, rids), Op.move iid p =>
    (m.move_item iid p).map (fun r => (r.2, rids))
  | (m, rids), Op.reorder iid d => some ((m.reorder_item iid d).2, rids)
  | (m, rids), Op.remove i => some (m.remove_at i, rids)

/-- Run a sequence of operations from a starting state. -/
def run_ops : NestedListManager × List Int → List Op → Option (NestedListManager × List Int)
  | acc, [] => some acc
  | acc, op :: ops =>
    match apply_op acc op with
    | none => none
    | some acc' => run_ops acc' ops

/-- Invariant tying the store to the ids handed out so far: ids live in
`[0, next_id)`, are duplicate-free, were all returned by some `add_item`, and
the returned ids are strictly increasing and below `next_id`. -/
def IdInv (acc : NestedListManager × List Int) : Prop :=
  0 ≤ acc.1.next_id ∧
  (∀ it ∈ acc.1.items, 0 ≤ it.id ∧ it.id < acc.1.next_id) ∧
  (acc.1.items.map (fun it => it.id)).Nodup ∧
  List.Pairwise (· < ·) acc.2 ∧
  (∀ r ∈ acc.2, r < acc.1.next_id) ∧
  (∀ it ∈ acc.1.items, it.id ∈ acc.2)

/-- A single operation preserves `IdInv`. -/
theorem id_inv_step (acc acc' : NestedListManager × List Int) (op : Op)
    (hinv : IdInv acc) (h : apply_op acc op = some acc') : IdInv acc' := by
  obtain ⟨m, rids⟩ := acc
  obtain ⟨h0, hbound, hnd, hpw, hrb, hmem⟩ := hinv
  dsimp only at h0 hbound hnd hpw hrb hmem
  cases op with
  | add name p =>
    obtain ⟨ord, hitems, hnext, hact, hret⟩ := add_item_shape m name p
    have hacc : acc' = ((m.add_item name p).2, rids ++ [(m.add_item name p).1]) :=
      (Option.some.inj h).symm
    rw [hacc, hret]
    refine ⟨by rw [hnext]; omega, ?_, ?_, ?_, ?_, ?_⟩
    · intro it hit
      rw [hitems] at hit
      rcases List.mem_append.mp hit with hold | hnew
      · have := hbound it hold
        rw [hnext]
        omega
      · have heq : it = { id := m.next_id, name := name, parent_id := p, order := ord } := by
          simpa using hnew
        rw [heq, hnext]
        show 0 ≤ m.next_id ∧ m.next_id < m.next_id + 1
        omega
    · show (((m.add_item name p).2.items).map (fun it => it.id)).Nodup
      rw [hitems, List.map_append]
      rw [List.nodup_append]
      refine ⟨hnd, by simp, ?_⟩
      intro x hx hx2
      obtain ⟨it1, hmem1, heq1⟩ := List.mem_map.mp hx
      have hx' : x < m.next_id := heq1 ▸ (hbound it1 hmem1).2
      have hx'' : x = m.next_id := by simpa using hx2
      omega
    · show List.Pairwise (· < ·) (rids ++ [m.next_id])
      rw [List.pairwise_append]
      refine ⟨hpw, List.pairwise_singleton _ _, ?_⟩
      intro x hx y hy
      have := hrb x hx
      have hy' : y = m.next_id := by simpa using hy
      omega
    · intro r hr
      rw [hnext]
      rcases List.mem_append.mp hr with hold | hnew
      · have := hrb r hold
        omega
      · have : r = m.next_id := by simpa using hnew
        omega
    · intro it hit
      rw [hitems] at hit
      rcases List.mem_append.mp hit with hold | hnew
      · exact List.mem_append.mpr (Or.inl (hmem it hold))
      · have heq : it = { id := m.next_id, name := name, parent_id := p, order := ord } := by
          simpa using hnew
        rw [heq]
        exact List.mem_append.mpr (Or.inr (by simp))
  | move iid p =>
    cases hmv : m.move_item iid p with
    | none =>
      rw [show apply_op (m, rids) (Op.move iid p) =
        (m.move_item iid p).map (fun r => (r.2, rids)) from rfl, hmv] at h
      exact Option.noConfusion h
    | some r =>
      obtain ⟨b, m'⟩ := r
      have hacc : acc' = (m', rids) := by
        rw [show apply_op (m, rids) (Op.move iid p) =
          (m.move_item iid p).map (fun r => (r.2, rids)) from rfl, hmv] at h
        exact (Option.some.inj h).symm
      rw [hacc]
      cases b with
      | false =>
        rw [move_item_false_shape m iid p m' hmv]
        exact ⟨h0, hbound, hnd, hpw, hrb, hmem⟩
      | true =>
        obtain ⟨it0, ord, hfind, hpd, hcw, hitems, hnext, hact⟩ :=
          move_item_success_shape m iid p m' hmv
        have hids : m'.items.map (fun it => it.id) = m.items.map (fun it => it.id) := by
          rw [hitems, List.map_map]
          exact List.map_congr_left (fun it _ => move_update_id iid p ord it)
        refine ⟨by rw [hnext]; omega, ?_, ?_, hpw, ?_, ?_⟩
        · intro it hit
          rw [hitems] at hit
          obtain ⟨it1, hmem1, heq1⟩ := List.mem_map.mp hit
          rw [← heq1, move_update_id, hnext]
          exact hbound it1 hmem1
        · show (m'.items.map (fun it => it.id)).Nodup
          rw [hids]
          exact hnd
        · intro r hr
          rw [hnext]
          exact hrb r hr
        · intro it hit
          rw [hitems] at hit
          obtain ⟨it1, hmem1, heq1⟩ := List.mem_map.mp hit
          rw [← heq1, move_update_id]
          exact hmem it1 hmem1
  | reorder iid d =>
    have hacc : acc' = ((m.reorder_item iid d).2, rids) := (Option.some.inj h).symm
    rw [hacc]
    rcases reorder_item_shape m iid d with heq | ⟨a, b, hitems, hnext, hact⟩
    · rw [heq]
      exact ⟨h0, hbound, hnd, hpw, hrb, hmem⟩
    · have hidf : ∀ it : NestedListItem,
          ((fun it => if it.id == a.id then { it with order := b.order }
            else if it.id == b.id then { it with order := a.order } else it) it).id = it.id := by
        intro it
        dsimp only
        split
        · rfl
        · split <;> rfl
      have hids : (m.reorder_item iid d).2.items.map (fun it => it.id) =
          m.items.map (fun it => it.id) := by
        rw [hitems, List.map_map]
        exact List.map_congr_left (fun it _ => hidf it)
      refine ⟨by rw [hnext]; omega, ?_, ?_, hpw, ?_, ?_⟩
      · intro it hit
        rw [hitems] at hit
        obtain ⟨it1, hmem1, heq1⟩ := List.mem_map.mp hit
        rw [← heq1, hidf it1, hnext]
        exact hbound it1 hmem1
      · show ((m.reorder_item iid d).2.items.map (fun it => it.id)).Nodup
        rw [hids]
        exact hnd
      · intro r hr
        rw [hnext]
        exact hrb r hr
      · intro it hit
        rw [hitems] at hit
        obtain ⟨it1, hmem1, heq1⟩ := List.mem_map.mp hit
        rw [← heq1, hidf it1]
        exact hmem it1 hmem1
  | remove i =>
    have hacc : acc' = (m.remove_at i, rids) := (Option.some.inj h).symm
    rw [hacc]
    have hsub : (m.remove_at i).items.Sublist m.items := List.eraseIdx_sublist m.items i
    refine ⟨h0, ?_, ?_, hpw, hrb, ?_⟩
    · intro it hit
      exact hbound it (hsub.mem hit)
    · exact List.Nodup.sublist (hsub.map (fun it => it.id)) hnd
    · intro it hit
      exact hmem it (hsub.mem hit)

/-- `IdInv` holds after any successful run. -/
theorem id_inv_run (ops : List Op) :
    ∀ acc acc', IdInv acc → run_ops acc ops = some acc' → IdInv acc' := by
  induction ops with
  | nil =>
    intro acc acc' hinv h
    rw [show run_ops acc [] = some acc from rfl] at h
    rw [← Option.some.inj h]
    exact hinv
  | cons op ops ih =>
    intro acc acc' hinv h
    rw [show run_ops acc (op :: ops) =
        (match apply_op acc op with
         | none => none
         | some acc1 => run_ops acc1 ops) from rfl] at h
    cases hstep : apply_op acc op with
    | none => rw [hstep] at h; exact Option.noConfusion h
    | some acc1 =>
      rw [hstep] at h
      exact ih acc1 acc' (id_inv_step acc acc1 op hinv hstep) h

/-- C5: over any sequence of operations (additions with arbitrary arguments,
moves, reorders and removals) run from the fresh manager, the ids returned by
the `add_item` calls are strictly increasing in allocation order — hence
pairwise distinct and never reused, also after removals — and the ids stored
in the final state are duplicate-free and all stem from those `add_item`
returns (no id is ever mutated after creation). -/
theorem run_ops_ids_strictly_increasing (ops : List Op)
    (m : NestedListManager) (rids : List Int)
    (h : run_ops (initial_manager, []) ops = some (m, rids)) :
    List.Pairwise (· < ·) rids ∧
    (m.items.map (fun it => it.id)).Nodup ∧
    (∀ it ∈ m.items, it.id ∈ rids) := by
  have hinit : IdInv (initial_manager, []) := by
    refine ⟨le_refl 0, ?_, ?_, ?_, ?_, ?_⟩ <;> simp [initial_manager]
  have := id_inv_run ops (initial_manager, []) (m, rids) hinit h
  exact ⟨this.2.2.2.1, this.2.2.1, this.2.2.2.2.2⟩

/-- Witness for C5 on a concrete run: two additions, a removal, another
addition — returned ids [0, 1, 2], still strictly increasing and none
reused. -/
theorem run_ops_ids_strictly_increasing_witness :
    run_ops (initial_manager, [])
        [Op.add "a" (-1), Op.add "b" (-1), Op.remove 0, Op.add "c" (-1)] =
      some ({ items := [⟨1, "b", -1, 2⟩, ⟨2, "c", -1, 3⟩],
              active_index := 0, next_id := 3 }, [0, 1, 2]) ∧
    List.Pairwise (· < ·) [(0 : Int), 1, 2] ∧
    (∀ it ∈ ({ items := [⟨1, "b", -1, 2⟩, ⟨2, "c", -1, 3⟩],
               active_index := 0, next_id := 3 } : NestedListManager).items,
      it.id ∈ [(0 : Int), 1, 2]) := by
  have hrun : run_ops (initial_manager, [])
      [Op.add "a" (-1), Op.add "b" (-1), Op.remove 0, Op.add "c" (-1)] =
      some ({ items := [⟨1, "b", -1, 2⟩, ⟨2, "c", -1, 3⟩],
              active_index := 0, next_id := 3 }, [0, 1, 2]) := by decide
  have hmain := run_ops_ids_strictly_increasing
    [Op.add "a" (-1), Op.add "b" (-1), Op.remove 0, Op.add "c" (-1)] _ _ hrun
  exact ⟨hrun, hmain.1, hmain.2.2⟩

/-! ### C9: items with dangling parents and the flattened view -/

/-- Anything emitted by `collect_items` is an item of the collection whose
parent is either the parent id of the current call or the id of some item of
the collection (the recursion only descends through existing items' ids). -/
theorem collect_items_mem (items : List NestedListItem) :
    ∀ (fuel : Nat) (p : Int) (lvl : Nat) (it : NestedListItem) (l : Nat),
      (it, l) ∈ collect_items items fuel p lvl →
      it ∈ items ∧ (it.parent_id = p ∨ ∃ c ∈ items, c.id = it.parent_id) := by
  intro fuel
  induction fuel with
  | zero =>
    intro p lvl it l hmem
    rw [show collect_items items 0 p lvl = [] from rfl] at hmem
    exact absurd hmem (List.not_mem_nil _)
  | succ fuel ih =>
    intro p lvl it l hmem
    rw [show collect_items items (fuel + 1) p lvl =
        ((sort_by_order (items.filter (fun i => i.parent_id == p))).map
          (fun c => (c, lvl) :: collect_items items fuel c.id (lvl + 1))).flatten
      from rfl] at hmem
    obtain ⟨block, hblock, hin⟩ := List.mem_flatten.mp hmem
    obtain ⟨c, hc, hceq⟩ := List.mem_map.mp hblock
    have hcmem : c ∈ items ∧ (c.parent_id == p) = true :=
      List.mem_filter.mp (mem_sort_by_order.mp hc)
    rw [← hceq] at hin
    rcases List.mem_cons.mp hin with hhead | htail
    · have : it = c := congrArg Prod.fst hhead
      rw [this]
      exact ⟨hcmem.1, Or.inl (beq_iff_eq.mp hcmem.2)⟩
    · obtain ⟨hitmem, hrec⟩ := ih c.id (lvl + 1) it l htail
      refine ⟨hitmem, ?_⟩
      rcases hrec with h1 | h2
      · exact Or.inr ⟨c, hcmem.1, h1.symm⟩
      · exact Or.inr h2

/-- C9 (amended): an item whose `parent_id` is non-sentinel and matches no
item currently in the collection never appears in `flatten_hierarchy` — the
traversal from the sentinel cannot reach it.  (This holds of any store state
with that property; it is not preserved by subsequent operations, which can
make the item visible again — see the counterexample.) -/
theorem dangling_item_invisible (m : NestedListManager) (it : NestedListItem)
    (lvl : Nat) (hpar : it.parent_id ≠ -1)
    (habs : ∀ c ∈ m.items, c.id ≠ it.parent_id) :
    (it, lvl) ∉ m.flatten_hierarchy := by
  intro hmem
  obtain ⟨hitmem, hrec⟩ := collect_items_mem m.items (m.items.length + 1) (-1) 0 it lvl hmem
  rcases hrec with h1 | ⟨c, hcmem, hceq⟩
  · exact hpar h1
  · exact habs c hcmem hceq

/-- The store obtained by creating a single item whose parent id 5 exists
nowhere: a dangling-parent item. -/
def store_c9 : NestedListManager := (initial_manager.add_item "D" 5).2

/-- Witness for the amended C9: the dangling item of `store_c9` (id 0,
parent 5, order 1) is absent from the flattened view. -/
theorem dangling_item_invisible_witness :
    ((⟨0, "D", 5, 1⟩ : NestedListItem), 0) ∉ store_c9.flatten_hierarchy :=
  dangling_item_invisible store_c9 ⟨0, "D", 5, 1⟩ 0 (by decide) (by decide)

/-- C9 counterexample: the dangling item is not invisible forever.  A
subsequent `move_item(0, -1)` succeeds (the walk from the sentinel finds no
item and the guard passes), after which the very item created with the
dangling parent id appears in `flatten_hierarchy` at depth 0. -/
theorem dangling_item_becomes_visible_counterexample :
    store_c9.move_item 0 (-1) =
      some (true, { items := [⟨0, "D", -1, 2⟩], active_index := 0, next_id := 1 }) ∧
    ((⟨0, "D", -1, 2⟩ : NestedListItem), 0) ∈
      ({ items := [⟨0, "D", -1, 2⟩], active_index := 0, next_id := 1 }
        : NestedListManager).flatten_hierarchy := by
  decide
